import Mathlib

/-!
Verification of `polars-core/src/chunked_array/ops/explode.rs`.

Shallow embedding conventions:
* Rust `i64` values (offset buffers, the running `count`) become `Int`; the
  inputs reachable here are bounded far below `2^63`, so wrap-around of the
  running count is unreachable and not modelled.
* The `u32` row index pushed by `offsets_to_indexes` becomes `Nat`; the row
  counter only wraps past `2^32` rows, far beyond any input considered here.
* Rust `usize` subtraction `capacity - count as usize` is modelled by
  truncated `Nat` subtraction; the theorems below show the subtrahend never
  exceeds `capacity` on the inputs claimed about, so no underflow occurs.
* Fallible operations return `Except PolarsError`.
* Well-formed UTF-8 text is modelled by its decoded scalar-value sequence
  (`List Char`); byte positions are recovered with `Char.utf8Size`.
-/

namespace PolarsExplode

/-- The error kinds of `PolarsError` that matter here. The source file only
ever constructs `NoData`; further variants exist in the crate and are
represented by `ComputeError` so that "only `NoData` is produced" is a
meaningful statement about the embedded functions. -/
inductive PolarsError where
  | NoData : String → PolarsError
  | ComputeError : String → PolarsError
deriving DecidableEq, Repr

/-- The boundary-walking loop of `offsets_to_indexes` (explode.rs lines
15-23).  State: the processed tail of `offsets`, the running `count : i64`
and `last_idx : u32` (as `Nat`, see header).  For each boundary `offset`,
`while count < offset { count += 1; idx.push(last_idx) }` pushes
`(offset - count).toNat` copies of `last_idx` and leaves
`count = max count offset`; then `last_idx += 1`.
Returns (pushed indexes, final count, final last_idx). -/
def otiLoop : List Int → Int → Nat → List Nat × Int × Nat
  | [], count, last_idx => ([], count, last_idx)
  | offset :: rest, count, last_idx =>
    let out := otiLoop rest (max count offset) (last_idx + 1)
    (List.replicate (offset - count).toNat last_idx ++ out.1, out.2)

/-- `offsets_to_indexes` (explode.rs lines 12-28): walk the offsets from
index 1, then pad with the final `last_idx` until `capacity` entries
(`for _ in 0..(capacity - count as usize)`). -/
def offsets_to_indexes (offsets : List Int) (capacity : Nat) : List Nat :=
  let out := otiLoop (offsets.drop 1) 0 0
  out.1 ++ List.replicate (capacity - out.2.1.toNat) out.2.2

/-- The value of `count` after the boundary loop of `offsets_to_indexes`,
i.e. the subtrahend of the Rust padding subtraction `capacity - count`. -/
def otiFinalCount (offsets : List Int) : Int :=
  (otiLoop (offsets.drop 1) 0 0).2.1

/-- Per-row element counts `offsets[j+1] - offsets[j]` determined by an
offsets array. -/
def rowElementCounts (offsets : List Int) : List Nat :=
  List.zipWith (fun a b => (b - a).toNat) offsets (offsets.drop 1)

/-! ## List columns (`ChunkExplode for ListChunked`)

A chunk of a `LargeListArray` is modelled at the physical level the code
reads: the full backing offsets buffer and child-values buffer, plus the
row window (`ArrayData::offset` / length) that a zero-copy slice sets. -/

/-- One physical chunk of a large-list array: a row window
(`rowOffset`, `rowLen`) over a backing offsets buffer (row boundaries into
the child values) and the full child values buffer. Child elements are
`Int` (the claims use integer lists). -/
structure ListArr where
  rowOffset : Nat
  rowLen : Nat
  offsetsBuf : List Int
  child : List Int
deriving DecidableEq, Repr

/-- `LargeListArray::value_offsets`: the window of the raw offsets buffer
starting at the array's row offset, of length `rowLen + 1`. -/
def ListArr.value_offsets (a : ListArr) : List Int :=
  (a.offsetsBuf.drop a.rowOffset).take (a.rowLen + 1)

/-- The logical rows in view of a list chunk: row `j` holds the child
elements between boundary `rowOffset + j` and boundary `rowOffset + j + 1`. -/
def ListArr.viewRows (a : ListArr) : List (List Int) :=
  (List.range a.rowLen).map (fun j =>
    ((a.child.take (a.offsetsBuf.getD (a.rowOffset + j + 1) 0).toNat).drop
      (a.offsetsBuf.getD (a.rowOffset + j) 0).toNat))

/-- A list-typed chunked column: a name and its chunks. -/
structure ListChunked where
  name : String
  chunks : List ListArr
deriving DecidableEq, Repr

/-- Total row count of the column (sum of the chunk windows). -/
def ListChunked.len (self : ListChunked) : Nat :=
  (self.chunks.map ListArr.rowLen).sum

/-- Row-boundary offsets of a freshly materialized chunk: `0`, then the
running sum of row lengths (length = rows + 1, starts at 0). -/
def listOffsRec : Int → List (List Int) → List Int
  | pos, [] => [pos]
  | pos, r :: rs => pos :: listOffsRec (pos + r.length) rs

/-- A single contiguous chunk holding exactly the given rows: window starts
at 0, offsets rebased to 0, child buffer the concatenation of the rows. -/
def materializeList (rows : List (List Int)) : ListArr :=
  ⟨0, rows.length, listOffsRec 0 rows, rows.flatten⟩

/-- Modelled from the spec: `ChunkedArray::rechunk` is not under `src/`.
Per §3 and the glossary it coalesces the chunks into a single contiguous
chunk honoring each chunk's slice window (§4.2: "a column previously sliced
must have its slice window honored by rechunking before reading offsets"),
and per §7 a column with no chunks / no rows yields no chunk for
`downcast_iter().next()` to return, which is what raises `NoData`. -/
def ListChunked.rechunk (self : ListChunked) : ListChunked :=
  if self.len = 0 then ⟨self.name, []⟩
  else ⟨self.name, [materializeList ((self.chunks.map ListArr.viewRows).flatten)]⟩

/-- Modelled from the spec: `ChunkedArray::slice` is not under `src/`.
Per the glossary a slice is a zero-copy windowed view over the backing
storage: the backing buffers are shared and only the row window moves.
Only single-chunk columns are sliced in this development. -/
def ListChunked.slice (self : ListChunked) (offset length : Nat) : ListChunked :=
  ⟨self.name, self.chunks.map (fun a =>
    ⟨a.rowOffset + offset, length, a.offsetsBuf, a.child⟩)⟩

/-- `ChunkExplode for ListChunked` (explode.rs lines 30-52): rechunk, take
the single chunk (`NoData "cannot explode empty list"` if there is none),
read its `value_offsets`, slice the child values from the chunk's base
offset through the final boundary offset
(`values().slice(listarr.offset(), offsets[offsets.len()-1])`), and return
(flat series named after the parent, offsets slice, normalized parent). -/
def ListChunked.explode_and_offsets (self : ListChunked) :
    Except PolarsError ((String × List Int) × List Int × ListChunked) :=
  let ca := self.rechunk
  match ca.chunks.head? with
  | none => .error (.NoData "cannot explode empty list")
  | some listarr =>
    let offsets := listarr.value_offsets
    let values := (listarr.child.drop listarr.rowOffset).take (offsets.getLastD 0).toNat
    .ok ((self.name, values), offsets, ca)

/-! ## Text columns (`ChunkExplode for Utf8Chunked`)

A text row is `Option (List Char)`: `none` is a null row, a valid row is its
decoded scalar-value sequence (raw bytes are recovered via `Char.utf8Size`,
see the header).  No claim slices a text column, so a chunk is simply its
row list. -/

/-- A row of a text column. -/
abbrev StrRow := Option (List Char)

/-- The scalar-value content of a row; a null row holds no bytes. -/
def rowChars (r : StrRow) : List Char := r.getD []

/-- UTF-8 byte length of a scalar-value sequence. -/
def byteLen (cs : List Char) : Nat := (cs.map Char.utf8Size).sum

/-- A text-typed chunked column. -/
structure Utf8Chunked where
  name : String
  chunks : List (List StrRow)
deriving DecidableEq, Repr

/-- Total row count (`self.len()`). -/
def Utf8Chunked.len (self : Utf8Chunked) : Nat :=
  (self.chunks.map List.length).sum

/-- `self.null_count()`: number of null rows. -/
def Utf8Chunked.null_count (self : Utf8Chunked) : Nat :=
  (self.chunks.map (List.countP (fun r => r.isNone))).sum

/-- Modelled from the spec: `ChunkedArray::rechunk` is not under `src/`
(see `ListChunked.rechunk` for the reading of §3 and §7 used here). -/
def Utf8Chunked.rechunk (self : Utf8Chunked) : Utf8Chunked :=
  if self.len = 0 then ⟨self.name, []⟩
  else ⟨self.name, [self.chunks.flatten]⟩

/-- `LargeStringArray::value_data`: the concatenated byte buffer of all row
values (a null row contributes no bytes), as its decoded scalar sequence. -/
def stringValueData (rows : List StrRow) : List Char :=
  (rows.map rowChars).flatten

/-- The physical offsets buffer of a single-chunk string array
(`data.buffers()[0]`): byte start of each row, then the total byte length;
length = rows + 1, starting at 0. -/
def stringOffsRec : Int → List StrRow → List Int
  | pos, [] => [pos]
  | pos, r :: rs => pos :: stringOffsRec (pos + byteLen (rowChars r)) rs

/-- `Array::is_valid(i)` on the single chunk: whether row `i` is non-null.
The code only queries indexes below the row count; out-of-range defaults to
`false` and is never reached. -/
def isValidRow (rows : List StrRow) (i : Nat) : Bool :=
  (rows.getD i none).isSome

/-- `str::char_indices().map(|t| t.0)`: the byte start position of every
scalar value of the buffer, beginning at `pos`. -/
def charStarts : Int → List Char → List Int
  | _, [] => []
  | pos, c :: cs => pos :: charStarts (pos + c.utf8Size) cs

/-- The validity-bitmap walk of `Utf8Chunked::explode_and_offsets`
(explode.rs lines 94-104): same loop shape as `otiLoop`, but each push
appends the current row's validity bit `last_valid`, and advancing the row
re-reads `last_valid = is_valid(last_idx)`.
Returns (appended bits, final count, final last_valid). -/
def nullMaskLoop (is_valid : Nat → Bool) :
    List Int → Int → Nat → Bool → List Bool × Int × Bool
  | [], count, _, last_valid => ([], count, last_valid)
  | offset :: rest, count, last_idx, last_valid =>
    let out := nullMaskLoop is_valid rest (max count offset) (last_idx + 1)
      (is_valid (last_idx + 1))
    (List.replicate (offset - count).toNat last_valid ++ out.1, out.2)

/-- The rebuilt validity bitmap (explode.rs lines 92-107): run the walk from
`count = 0`, `last_idx = 0`, `last_valid = is_valid(0)` over
`offsets.iter().skip(1)`, then pad with the last validity bit until
`capacity` bits (`for _ in 0..(capacity - count as usize)`). -/
def rebuildNullMask (is_valid : Nat → Bool) (offsets : List Int)
    (capacity : Nat) : List Bool :=
  let out := nullMaskLoop is_valid (offsets.drop 1) 0 0 (is_valid 0)
  out.1 ++ List.replicate (capacity - out.2.1.toNat) out.2.2

/-- The exploded `LargeStringArray` built by `ArrayData::builder`
(explode.rs lines 84-112): declared length `new_offsets.len() - 1`, first
buffer the new offsets, second buffer the unchanged byte data, and the
optional rebuilt validity bitmap. -/
structure StringArrData where
  len : Nat
  offsets : List Int
  values : List Char
  validity : Option (List Bool)
deriving DecidableEq, Repr

/-- The scalar values of the buffer whose byte start positions fall in
`[a, b)`, scanning from byte position `pos`: how a consumer reads back row
`i` of the built array from its offsets and shared byte buffer. -/
def sliceByBytes : Int → Int → Int → List Char → List Char
  | _, _, _, [] => []
  | pos, a, b, c :: cs =>
    (if a ≤ pos ∧ pos < b then [c] else []) ++ sliceByBytes (pos + c.utf8Size) a b cs

/-- Row `i` of a built string array: the bytes between offsets `i` and
`i + 1`. -/
def StringArrData.row (arr : StringArrData) (i : Nat) : List Char :=
  sliceByBytes 0 (arr.offsets.getD i 0) (arr.offsets.getD (i + 1) 0) arr.values

/-- Validity of output row `i`: an absent bitmap means all rows valid. -/
def StringArrData.rowIsValid (arr : StringArrData) (i : Nat) : Bool :=
  match arr.validity with
  | none => true
  | some bits => bits.getD i true

/-- `ChunkExplode for Utf8Chunked` (explode.rs lines 54-117): rechunk, take
the single chunk (`NoData "cannot explode empty str"` if none), read the
value bytes and the offsets buffer — of which only `self.len()` leading
entries are taken (`slice::from_raw_parts(offset_ptr, self.len())`) — scan
the whole byte run for scalar-value starts, append the total byte length as
the final new offset, rebuild the validity bitmap at
`capacity = new_offsets.len()` when the column has nulls, and build the new
array with declared length `new_offsets.len() - 1` over the unchanged byte
buffer. -/
def Utf8Chunked.explode_and_offsets (self : Utf8Chunked) :
    Except PolarsError ((String × StringArrData) × List Int × Utf8Chunked) :=
  let ca := self.rechunk
  match ca.chunks.head? with
  | none => .error (.NoData "cannot explode empty str")
  | some rows =>
    let str_values_buf := stringValueData rows
    let offsets := (stringOffsRec 0 rows).take self.len
    let new_offsets := charStarts 0 str_values_buf ++ [(byteLen str_values_buf : Int)]
    let validity :=
      if 0 < self.null_count then
        some (rebuildNullMask (isValidRow rows) offsets new_offsets.length)
      else none
    .ok ((self.name, ⟨new_offsets.length - 1, new_offsets, str_values_buf, validity⟩),
      offsets, ca)

/-- The byte start position of each row: the first `rows.length` entries of
`stringOffsRec pos rows` (what the truncated offsets slice holds). -/
def rowStarts : Int → List StrRow → List Int
  | _, [] => []
  | pos, r :: rs => pos :: rowStarts (pos + (byteLen (rowChars r) : Int)) rs

/-- Total UTF-8 byte size of all rows. -/
def byteSumRows (rows : List StrRow) : Nat :=
  (rows.map (fun r => byteLen (rowChars r))).sum

/-- The exploded array of a successful string explode, if any. -/
def utf8Exploded (c : Utf8Chunked) : Option StringArrData :=
  match c.explode_and_offsets with
  | .ok ((_, a), _, _) => some a
  | .error _ => none

/-- The borrowed offsets slice returned by a successful string explode. -/
def utf8ExplodedOffsets (c : Utf8Chunked) : Option (List Int) :=
  match c.explode_and_offsets with
  | .ok (_, offs, _) => some offs
  | .error _ => none

/-! ## Lemmas about the `offsets_to_indexes` boundary walk -/

theorem otiLoop_lastIdx (offs : List Int) (c : Int) (l : Nat) :
    (otiLoop offs c l).2.2 = l + offs.length := by
  induction offs generalizing c l with
  | nil => simp [otiLoop]
  | cons o rest ih => simp [otiLoop, ih]; omega

theorem getLastD_ge (offs : List Int) (c : Int)
    (h : List.Chain' (· ≤ ·) (c :: offs)) : c ≤ offs.getLastD c := by
  induction offs generalizing c with
  | nil => simp [List.getLastD]
  | cons o rest ih =>
    have hco : c ≤ o := (List.chain'_cons.mp h).1
    have hrest := ih o (List.chain'_cons.mp h).2
    rw [List.getLastD_cons]
    exact le_trans hco hrest

theorem otiLoop_count (offs : List Int) (c : Int) (l : Nat)
    (h : List.Chain' (· ≤ ·) (c :: offs)) :
    (otiLoop offs c l).2.1 = offs.getLastD c := by
  induction offs generalizing c l with
  | nil => simp [otiLoop, List.getLastD]
  | cons o rest ih =>
    have hco : c ≤ o := (List.chain'_cons.mp h).1
    have hrest := ih o (l + 1) (List.chain'_cons.mp h).2
    rw [List.getLastD_cons]
    simp only [otiLoop, max_eq_right hco]
    exact hrest

theorem otiLoop_length (offs : List Int) (c : Int) (l : Nat)
    (h : List.Chain' (· ≤ ·) (c :: offs)) :
    (otiLoop offs c l).1.length = (offs.getLastD c - c).toNat := by
  induction offs generalizing c l with
  | nil => simp [otiLoop, List.getLastD]
  | cons o rest ih =>
    have hco : c ≤ o := (List.chain'_cons.mp h).1
    have hchain := (List.chain'_cons.mp h).2
    have hoL : o ≤ rest.getLastD o := getLastD_ge rest o hchain
    have hrest := ih o (l + 1) hchain
    rw [List.getLastD_cons]
    simp only [otiLoop, List.length_append, List.length_replicate, max_eq_right hco, hrest]
    omega

theorem otiLoop_mem_le (offs : List Int) (c : Int) (l : Nat) :
    ∀ x ∈ (otiLoop offs c l).1, l ≤ x := by
  induction offs generalizing c l with
  | nil => simp [otiLoop]
  | cons o rest ih =>
    intro x hx
    simp only [otiLoop, List.mem_append] at hx
    rcases hx with hx | hx
    · rcases List.mem_replicate.mp hx with ⟨-, rfl⟩; exact Nat.le_refl _
    · exact Nat.le_of_succ_le (ih (max c o) (l + 1) x hx)

theorem chain_replicate_le (n a : Nat) :
    List.Chain' (· ≤ ·) (List.replicate n a) := by
  induction n with
  | zero => simp
  | succ m ih =>
    rw [List.replicate_succ]
    refine List.chain'_cons'.mpr ⟨?_, ih⟩
    intro y hy
    rcases List.mem_replicate.mp (List.mem_of_mem_head? hy) with ⟨-, rfl⟩
    exact Nat.le_refl _

theorem otiLoop_chain (offs : List Int) (c : Int) (l : Nat) :
    List.Chain' (· ≤ ·) (otiLoop offs c l).1 := by
  induction offs generalizing c l with
  | nil => simp [otiLoop]
  | cons o rest ih =>
    simp only [otiLoop]
    refine List.chain'_append.mpr ⟨chain_replicate_le _ _, ih (max c o) (l + 1), ?_⟩
    intro x hx y hy
    have hxl : x = l := by
      rcases List.mem_replicate.mp (List.mem_of_mem_getLast? hx) with ⟨-, rfl⟩; rfl
    have hyl : l + 1 ≤ y :=
      otiLoop_mem_le rest (max c o) (l + 1) y (List.mem_of_mem_head? hy)
    omega

theorem getD_replicate_of_lt {n i a d : Nat} (h : i < n) :
    (List.replicate n a).getD i d = a := by
  rw [List.getD_eq_getElem _ _ (by simpa using h)]
  exact List.getElem_replicate _ _

theorem otiLoop_getD (offs : List Int) (c : Int) (l : Nat)
    (h : List.Chain' (· ≤ ·) (c :: offs)) (i : Nat)
    (hi : i < (otiLoop offs c l).1.length) :
    ∃ j : Nat, j < offs.length ∧ (otiLoop offs c l).1.getD i 0 = l + j ∧
      (c :: offs).getD j 0 ≤ c + (i : Int) ∧ c + (i : Int) < offs.getD j 0 := by
  induction offs generalizing c l i with
  | nil => simp [otiLoop] at hi
  | cons o rest ih =>
    have hco : c ≤ o := (List.chain'_cons.mp h).1
    have hchain := (List.chain'_cons.mp h).2
    have hk : ((o - c).toNat : Int) = o - c := Int.toNat_of_nonneg (by omega)
    by_cases hik : i < (o - c).toNat
    · refine ⟨0, by simp, ?_, by simp only [List.getD_cons_zero]; omega, ?_⟩
      · simp only [otiLoop]
        rw [List.getD_append _ _ _ _ (by simpa using hik)]
        exact getD_replicate_of_lt hik
      · simp only [List.getD_cons_zero]
        omega
    · push_neg at hik
      have hlen : i - (o - c).toNat < (otiLoop rest (max c o) (l + 1)).1.length := by
        simp only [otiLoop, List.length_append, List.length_replicate] at hi
        omega
      rw [max_eq_right hco] at hlen
      obtain ⟨j, hj, hval, hlow, hhigh⟩ := ih o (l + 1) hchain (i - (o - c).toNat) hlen
      refine ⟨j + 1, by simpa using hj, ?_, ?_, ?_⟩
      · simp only [otiLoop]
        rw [List.getD_append_right _ _ _ _ (by simpa using hik), List.length_replicate,
          max_eq_right hco, hval]
        omega
      · rw [List.getD_cons_succ]
        omega
      · rw [List.getD_cons_succ]
        omega

theorem rowElementCounts_sum (offs : List Int) (c : Int)
    (h : List.Chain' (· ≤ ·) (c :: offs)) :
    (rowElementCounts (c :: offs)).sum = (offs.getLastD c - c).toNat := by
  induction offs generalizing c with
  | nil => simp [rowElementCounts, List.getLastD]
  | cons o rest ih =>
    have hco : c ≤ o := (List.chain'_cons.mp h).1
    have hchain := (List.chain'_cons.mp h).2
    have hoL : o ≤ rest.getLastD o := getLastD_ge rest o hchain
    have hrest := ih o hchain
    rw [List.getLastD_cons]
    simp only [rowElementCounts, List.drop_one, List.tail_cons, List.zipWith_cons_cons,
      List.sum_cons] at hrest ⊢
    omega

theorem oti_count_eq (offsets : List Int) (capacity : Nat)
    (hhead : offsets.head? = some 0)
    (hmono : List.Chain' (· ≤ ·) offsets)
    (hcap : (capacity : Int) = offsets.getLastD 0) :
    otiFinalCount offsets = (capacity : Int) := by
  obtain ⟨o0, tl, rfl⟩ : ∃ o0 tl, offsets = o0 :: tl := by
    cases offsets with
    | nil => simp at hhead
    | cons a b => exact ⟨a, b, rfl⟩
  have h0 : o0 = 0 := by simpa using hhead
  subst h0
  have hcap' : (capacity : Int) = tl.getLastD 0 := by rwa [List.getLastD_cons] at hcap
  have hcount := otiLoop_count tl 0 0 hmono
  simp only [otiFinalCount, List.drop_one, List.tail_cons]
  rw [hcount, hcap']

theorem oti_no_padding (offsets : List Int) (capacity : Nat)
    (hhead : offsets.head? = some 0)
    (hmono : List.Chain' (· ≤ ·) offsets)
    (hcap : (capacity : Int) = offsets.getLastD 0) :
    offsets_to_indexes offsets capacity = (otiLoop (offsets.drop 1) 0 0).1 := by
  have hcount := oti_count_eq offsets capacity hhead hmono hcap
  simp only [otiFinalCount] at hcount
  simp only [offsets_to_indexes, hcount, Int.toNat_natCast, Nat.sub_self,
    List.replicate_zero, List.append_nil]

/-- C1: for every valid offsets array (non-decreasing `i64` values starting
at 0) and capacity equal to the final offset, `offsets_to_indexes` returns a
mapping whose length equals `capacity` (which also equals the sum of the
per-row element counts), whose values are non-decreasing, and whose value at
position `i` is the parent row that produced exploded element `i`:
`offsets[mapping[i]] ≤ i < offsets[mapping[i] + 1]`. -/
theorem offsets_to_indexes_spec (offsets : List Int) (capacity : Nat)
    (hhead : offsets.head? = some 0)
    (hmono : List.Chain' (· ≤ ·) offsets)
    (hcap : (capacity : Int) = offsets.getLastD 0) :
    (offsets_to_indexes offsets capacity).length = capacity ∧
    (rowElementCounts offsets).sum = capacity ∧
    List.Chain' (· ≤ ·) (offsets_to_indexes offsets capacity) ∧
    ∀ i : Nat, i < capacity →
      offsets.getD ((offsets_to_indexes offsets capacity).getD i 0) 0 ≤ (i : Int) ∧
      (i : Int) < offsets.getD ((offsets_to_indexes offsets capacity).getD i 0 + 1) 0 := by
  have hmap := oti_no_padding offsets capacity hhead hmono hcap
  obtain ⟨o0, tl, rfl⟩ : ∃ o0 tl, offsets = o0 :: tl := by
    cases offsets with
    | nil => simp at hhead
    | cons a b => exact ⟨a, b, rfl⟩
  have h0 : o0 = 0 := by simpa using hhead
  subst h0
  have hcap' : (capacity : Int) = tl.getLastD 0 := by rwa [List.getLastD_cons] at hcap
  simp only [List.drop_one, List.tail_cons] at hmap
  have hlen : (otiLoop tl 0 0).1.length = capacity := by
    rw [otiLoop_length tl 0 0 hmono]
    omega
  refine ⟨by rw [hmap, hlen], ?_, by rw [hmap]; exact otiLoop_chain tl 0 0, ?_⟩
  · rw [rowElementCounts_sum tl 0 hmono]
    omega
  · intro i hi
    obtain ⟨j, hj, hval, hlow, hhigh⟩ :=
      otiLoop_getD tl 0 0 hmono i (by omega)
    rw [hmap, hval]
    constructor
    · simpa using hlow
    · simpa [List.getD_cons_succ] using hhigh

theorem offsets_to_indexes_spec_witness :
    ([0, 4, 5, 6] : List Int).head? = some 0 ∧
    List.Chain' (· ≤ ·) ([0, 4, 5, 6] : List Int) ∧
    ((6 : Nat) : Int) = ([0, 4, 5, 6] : List Int).getLastD 0 ∧
    ((offsets_to_indexes [0, 4, 5, 6] 6).length = 6 ∧
      (rowElementCounts [0, 4, 5, 6]).sum = 6 ∧
      List.Chain' (· ≤ ·) (offsets_to_indexes [0, 4, 5, 6] 6) ∧
      ∀ i : Nat, i < 6 →
        ([0, 4, 5, 6] : List Int).getD ((offsets_to_indexes [0, 4, 5, 6] 6).getD i 0) 0 ≤ (i : Int) ∧
        (i : Int) < ([0, 4, 5, 6] : List Int).getD ((offsets_to_indexes [0, 4, 5, 6] 6).getD i 0 + 1) 0) :=
  ⟨by decide, by simp [List.chain'_cons, List.chain'_singleton], by decide,
    offsets_to_indexes_spec [0, 4, 5, 6] 6 (by decide)
      (by simp [List.chain'_cons, List.chain'_singleton]) (by decide)⟩

/-- C8: on `offsets = [0, 2, 2]` with `capacity = 2` (trailing parent row
with zero elements) the mapping is exactly `[0, 0]`: the empty trailing row
contributes no entries yet still advances the row counter (`last_idx` ends
at 2), and since `count` already equals `capacity` no padding entries are
appended. -/
theorem offsets_to_indexes_trailing_empty :
    offsets_to_indexes [0, 2, 2] 2 = [0, 0] ∧
    otiFinalCount [0, 2, 2] = 2 ∧
    (otiLoop (([0, 2, 2] : List Int).drop 1) 0 0).2.2 = 2 := by decide

/-- C9: `offsets_to_indexes` is total over valid-by-construction inputs: the
embedding is a total function, the loop leaves `count` exactly equal to
`capacity`, so the Rust padding subtraction `capacity - count as usize`
is `0` and cannot underflow, and the returned mapping has length
`capacity`. -/
theorem offsets_to_indexes_total (offsets : List Int) (capacity : Nat)
    (hhead : offsets.head? = some 0)
    (hmono : List.Chain' (· ≤ ·) offsets)
    (hcap : (capacity : Int) = offsets.getLastD 0) :
    otiFinalCount offsets = (capacity : Int) ∧
    (otiFinalCount offsets).toNat ≤ capacity ∧
    (offsets_to_indexes offsets capacity).length = capacity := by
  have hcount := oti_count_eq offsets capacity hhead hmono hcap
  refine ⟨hcount, by omega, ?_⟩
  rw [oti_no_padding offsets capacity hhead hmono hcap]
  obtain ⟨o0, tl, rfl⟩ : ∃ o0 tl, offsets = o0 :: tl := by
    cases offsets with
    | nil => simp at hhead
    | cons a b => exact ⟨a, b, rfl⟩
  have h0 : o0 = 0 := by simpa using hhead
  subst h0
  have hcap' : (capacity : Int) = tl.getLastD 0 := by rwa [List.getLastD_cons] at hcap
  simp only [List.drop_one, List.tail_cons]
  rw [otiLoop_length tl 0 0 hmono]
  omega

theorem offsets_to_indexes_total_witness :
    ([0, 2, 2] : List Int).head? = some 0 ∧
    List.Chain' (· ≤ ·) ([0, 2, 2] : List Int) ∧
    ((2 : Nat) : Int) = ([0, 2, 2] : List Int).getLastD 0 ∧
    (otiFinalCount [0, 2, 2] = ((2 : Nat) : Int) ∧
      (otiFinalCount [0, 2, 2]).toNat ≤ 2 ∧
      (offsets_to_indexes [0, 2, 2] 2).length = 2) :=
  ⟨by decide, by simp [List.chain'_cons, List.chain'_singleton], by decide,
    offsets_to_indexes_total [0, 2, 2] 2 (by decide)
      (by simp [List.chain'_cons, List.chain'_singleton]) (by decide)⟩

/-! ## Lemmas about the rebuilt string offsets -/

theorem charStarts_length (cs : List Char) (pos : Int) :
    (charStarts pos cs).length = cs.length := by
  induction cs generalizing pos with
  | nil => rfl
  | cons c t ih => simp [charStarts, ih]

theorem byteLen_cons (c : Char) (t : List Char) :
    byteLen (c :: t) = c.utf8Size + byteLen t := by
  simp [byteLen]

theorem newOffsets_head (cs : List Char) (pos : Int) :
    (charStarts pos cs ++ [pos + (byteLen cs : Int)]).head? = some pos := by
  cases cs with
  | nil => simp [charStarts, byteLen]
  | cons c t => simp [charStarts]

theorem newOffsets_chain (cs : List Char) (pos : Int) :
    List.Chain' (· < ·) (charStarts pos cs ++ [pos + (byteLen cs : Int)]) := by
  induction cs generalizing pos with
  | nil => simp [charStarts]
  | cons c t ih =>
    have harith : pos + (byteLen (c :: t) : Int)
        = (pos + (c.utf8Size : Int)) + (byteLen t : Int) := by
      rw [byteLen_cons]; push_cast; ring
    simp only [charStarts, List.cons_append, harith]
    refine List.chain'_cons'.mpr ⟨?_, ih (pos + (c.utf8Size : Int))⟩
    intro y hy
    rw [newOffsets_head t (pos + (c.utf8Size : Int))] at hy
    simp only [Option.mem_def, Option.some.injEq] at hy
    have hpos : 0 < (c.utf8Size : Int) := by exact_mod_cast Char.utf8Size_pos c
    omega

/-! ## Lemmas about the rebuilt validity bitmap -/

theorem nullMaskLoop_eq_otiLoop (f : Nat → Bool) (offs : List Int) (c : Int)
    (l : Nat) (v : Bool) :
    (nullMaskLoop f offs c l v).1.length = (otiLoop offs c l).1.length ∧
    (nullMaskLoop f offs c l v).2.1 = (otiLoop offs c l).2.1 := by
  induction offs generalizing c l v with
  | nil => simp [nullMaskLoop, otiLoop]
  | cons o rest ih =>
    have h := ih (max c o) (l + 1) (f (l + 1))
    simp [nullMaskLoop, otiLoop, h.1, h.2]

theorem stringOffsRec_take (rows : List StrRow) (pos : Int) :
    (stringOffsRec pos rows).take rows.length = rowStarts pos rows := by
  induction rows generalizing pos with
  | nil => rfl
  | cons r rs ih => simp [stringOffsRec, rowStarts, List.take_succ_cons, ih]

theorem rowStarts_head (rows : List StrRow) (pos : Int) (hne : rows ≠ []) :
    (rowStarts pos rows).head? = some pos := by
  cases rows with
  | nil => exact absurd rfl hne
  | cons r rs => rfl

theorem rowStarts_chain (rows : List StrRow) (pos : Int) :
    List.Chain' (· ≤ ·) (rowStarts pos rows) := by
  induction rows generalizing pos with
  | nil => simp [rowStarts]
  | cons r rs ih =>
    simp only [rowStarts]
    refine List.chain'_cons'.mpr ⟨?_, ih _⟩
    intro y hy
    cases rs with
    | nil => simp [rowStarts] at hy
    | cons r2 rs2 =>
      rw [rowStarts_head _ _ (by simp)] at hy
      simp only [Option.mem_def, Option.some.injEq] at hy
      omega

theorem byteSumRows_cons (r : StrRow) (rs : List StrRow) :
    byteSumRows (r :: rs) = byteLen (rowChars r) + byteSumRows rs := by
  simp [byteSumRows]

theorem rowStarts_mem_le (rows : List StrRow) (pos : Int) :
    ∀ x ∈ rowStarts pos rows, x ≤ pos + (byteSumRows rows : Int) := by
  induction rows generalizing pos with
  | nil => simp [rowStarts]
  | cons r rs ih =>
    intro x hx
    simp only [rowStarts, List.mem_cons] at hx
    rcases hx with rfl | hx
    · omega
    · have h := ih (pos + (byteLen (rowChars r) : Int)) x hx
      rw [byteSumRows_cons]
      push_cast at h ⊢
      omega

theorem getLastD_le_of_forall (l : List Int) (d B : Int)
    (hmem : ∀ x ∈ l, x ≤ B) (hd : d ≤ B) : l.getLastD d ≤ B := by
  induction l generalizing d with
  | nil => exact hd
  | cons a t ih =>
    rw [List.getLastD_cons]
    exact ih a (fun x hx => hmem x (List.mem_cons_of_mem a hx))
      (hmem a (List.mem_cons_self a t))

theorem byteLen_eq_length (cs : List Char) (h : ∀ ch ∈ cs, ch.utf8Size = 1) :
    byteLen cs = cs.length := by
  induction cs with
  | nil => rfl
  | cons c t ih =>
    rw [byteLen_cons, h c (List.mem_cons_self c t),
      ih (fun ch hch => h ch (List.mem_cons_of_mem c hch))]
    simp [Nat.add_comm]

theorem byteSumRows_eq_length (rows : List StrRow)
    (h : ∀ r ∈ rows, ∀ ch ∈ rowChars r, ch.utf8Size = 1) :
    byteSumRows rows = (stringValueData rows).length := by
  induction rows with
  | nil => rfl
  | cons r rs ih =>
    have h1 := byteLen_eq_length (rowChars r) (h r (List.mem_cons_self r rs))
    have h2 := ih (fun r2 hr2 => h r2 (List.mem_cons_of_mem r hr2))
    simp only [byteSumRows_cons, stringValueData, List.map_cons, List.flatten_cons,
      List.length_append] at h2 ⊢
    omega

theorem utf8_len_eq_flatten_length (self : Utf8Chunked) :
    self.len = self.chunks.flatten.length := by
  simp [Utf8Chunked.len, List.length_flatten]

theorem rebuildNullMask_length (r : StrRow) (rs : List StrRow)
    (f : Nat → Bool) (capacity : Nat)
    (hcap : byteSumRows (r :: rs) < capacity) :
    (rebuildNullMask f ((stringOffsRec 0 (r :: rs)).take (r :: rs).length)
      capacity).length = capacity := by
  rw [stringOffsRec_take]
  have hchain : List.Chain' (· ≤ ·)
      ((0 : Int) :: rowStarts (0 + (byteLen (rowChars r) : Int)) rs) := by
    have h := rowStarts_chain (r :: rs) 0
    simpa [rowStarts] using h
  have hloop := nullMaskLoop_eq_otiLoop f
    (rowStarts (0 + (byteLen (rowChars r) : Int)) rs) 0 0 (f 0)
  have hcount := otiLoop_count
    (rowStarts (0 + (byteLen (rowChars r) : Int)) rs) 0 0 hchain
  have hlooplen := otiLoop_length
    (rowStarts (0 + (byteLen (rowChars r) : Int)) rs) 0 0 hchain
  have hbound : (rowStarts (0 + (byteLen (rowChars r) : Int)) rs).getLastD 0
      ≤ (byteSumRows (r :: rs) : Int) := by
    apply getLastD_le_of_forall
    · intro x hx
      have h := rowStarts_mem_le rs (0 + (byteLen (rowChars r) : Int)) x hx
      rw [byteSumRows_cons]
      push_cast at h ⊢
      omega
    · exact Int.natCast_nonneg _
  simp only [rebuildNullMask, rowStarts, List.drop_succ_cons, List.drop_zero,
    List.length_append, List.length_replicate, hloop.1, hloop.2, hlooplen, hcount]
  omega

/-! ## Concrete explode behavior -/

/-- C4: exploding the nested-list column `[[1,2,3,3],[1],[2]]` yields the
flat child values `[1,2,3,3,1,2]` under the parent's name, the offsets
`[0,4,5,6]`, and the normalized parent; `offsets_to_indexes` on those
offsets with capacity 6 yields the index mapping `[0,0,0,0,1,2]`. -/
theorem list_explode_nested :
    (ListChunked.mk "a" [⟨0, 3, [0, 4, 5, 6], [1, 2, 3, 3, 1, 2]⟩]).explode_and_offsets
      = .ok (("a", [1, 2, 3, 3, 1, 2]), [0, 4, 5, 6],
          ListChunked.mk "a" [⟨0, 3, [0, 4, 5, 6], [1, 2, 3, 3, 1, 2]⟩]) ∧
    offsets_to_indexes [0, 4, 5, 6] 6 = [0, 0, 0, 0, 1, 2] :=
  ⟨by rfl, by decide⟩

/-- C5: exploding the view holding only the first row of
`[[1,2,3,3],[1],[2]]` (a row-sliced window over the same backing chunk)
yields only the elements of the row in view, `[1,2,3,3]`, because the slice
window is honored by rechunking before the offsets are read. -/
theorem list_explode_sliced :
    ((ListChunked.mk "a" [⟨0, 3, [0, 4, 5, 6], [1, 2, 3, 3, 1, 2]⟩]).slice 0 1).explode_and_offsets
      = .ok (("a", [1, 2, 3, 3]), [0, 4],
          ListChunked.mk "a" [⟨0, 1, [0, 4], [1, 2, 3, 3]⟩]) := by rfl

/-- C2 counterexample: on the column `["ab", "c"]` the string explode does
return the three single-character rows, but the returned borrowed offsets
slice is `[0, 2]` — `slice::from_raw_parts(offset_ptr, self.len())` takes
only `self.len() = 2` leading entries of the offsets buffer — and not the
full row-boundary array `[0, 2, 3]` of length row-count + 1 that the claim
states. -/
theorem utf8_explode_offsets_counterexample :
    (Utf8Chunked.mk "a" [[some ['a', 'b'], some ['c']]]).explode_and_offsets
      = .ok (("a", ⟨3, [0, 1, 2, 3], ['a', 'b', 'c'], none⟩), [0, 2],
          Utf8Chunked.mk "a" [[some ['a', 'b'], some ['c']]]) ∧
    ([0, 2] : List Int) ≠ [0, 2, 3] :=
  ⟨by rfl, by decide⟩

/-- C2 amended: on `["ab", "c"]` (no nulls) the string explode returns an
exploded column of 3 single-character rows `["a","b","c"]` with no validity
bitmap, and the returned borrowed offsets slice is `[0, 2]`: the first
row-count entries of the original offsets buffer (the per-row start
positions), an array of length row-count. -/
theorem utf8_explode_ab_c :
    (utf8Exploded (Utf8Chunked.mk "a" [[some ['a', 'b'], some ['c']]])).map
        (fun a => (a.len, a.validity)) = some (3, none) ∧
    (utf8Exploded (Utf8Chunked.mk "a" [[some ['a', 'b'], some ['c']]])).map
        (fun a => (a.row 0, a.row 1, a.row 2)) = some (['a'], ['b'], ['c']) ∧
    utf8ExplodedOffsets (Utf8Chunked.mk "a" [[some ['a', 'b'], some ['c']]])
      = some [0, 2] ∧
    (Utf8Chunked.mk "a" [[some ['a', 'b'], some ['c']]]).len = 2 := by
  decide

/-- C7: on `["ab", null]` the exploded column has exactly the two character
rows produced by parent row 0, both marked valid; the null parent row 1
expands to zero elements, so it contributes no output rows and its null-ness
is not observable in the output. -/
theorem utf8_explode_null_row_dropped :
    (utf8Exploded (Utf8Chunked.mk "a" [[some ['a', 'b'], none]])).map
        (fun a => (a.len, a.row 0, a.row 1)) = some (2, ['a'], ['b']) ∧
    (utf8Exploded (Utf8Chunked.mk "a" [[some ['a', 'b'], none]])).map
        (fun a => (a.rowIsValid 0, a.rowIsValid 1)) = some (true, true) := by
  decide

/-- C6 counterexample: on `["ab", null]` the rebuilt validity bitmap holds
3 bits while the flat exploded values hold 2 rows — the loop's `capacity` is
`new_offsets.len()`, one more than the exploded row count, so the bitmap
length does not equal the number of exploded single-character rows. -/
theorem utf8_null_mask_length_counterexample :
    (utf8Exploded (Utf8Chunked.mk "a" [[some ['a', 'b'], none]])).map
        (fun a => ((a.validity.getD []).length, a.len))
      = some (3, 2) ∧ (3 : Nat) ≠ 2 := by
  decide

/-- C3: for every column with zero chunks or zero rows, both the list
explode and the string explode return the `NoData` error as a value to the
caller (the embedded functions are total, so no panic), and `NoData` is the
only error either operation ever produces. -/
theorem explode_noData (lc : ListChunked) (sc : Utf8Chunked) :
    ((lc.chunks = [] ∨ lc.len = 0) →
      lc.explode_and_offsets = .error (.NoData "cannot explode empty list")) ∧
    (∀ e, lc.explode_and_offsets = .error e → ∃ m, e = .NoData m) ∧
    ((sc.chunks = [] ∨ sc.len = 0) →
      sc.explode_and_offsets = .error (.NoData "cannot explode empty str")) ∧
    (∀ e, sc.explode_and_offsets = .error e → ∃ m, e = .NoData m) := by
  have hlc_err : lc.len = 0 →
      lc.explode_and_offsets = .error (.NoData "cannot explode empty list") := by
    intro h
    simp [ListChunked.explode_and_offsets, ListChunked.rechunk, h]
  have hlc_ok : lc.len ≠ 0 → ∀ e, lc.explode_and_offsets ≠ .error e := by
    intro h e
    simp [ListChunked.explode_and_offsets, ListChunked.rechunk, h]
  have hsc_err : sc.len = 0 →
      sc.explode_and_offsets = .error (.NoData "cannot explode empty str") := by
    intro h
    simp [Utf8Chunked.explode_and_offsets, Utf8Chunked.rechunk, h]
  have hsc_ok : sc.len ≠ 0 → ∀ e, sc.explode_and_offsets ≠ .error e := by
    intro h e
    simp [Utf8Chunked.explode_and_offsets, Utf8Chunked.rechunk, h]
  refine ⟨?_, ?_, ?_, ?_⟩
  · rintro (h | h)
    · exact hlc_err (by simp [ListChunked.len, h])
    · exact hlc_err h
  · intro e he
    by_cases h : lc.len = 0
    · have h2 := (hlc_err h).symm.trans he
      simp only [Except.error.injEq] at h2
      exact ⟨"cannot explode empty list", h2.symm⟩
    · exact absurd he (hlc_ok h e)
  · rintro (h | h)
    · exact hsc_err (by simp [Utf8Chunked.len, h])
    · exact hsc_err h
  · intro e he
    by_cases h : sc.len = 0
    · have h2 := (hsc_err h).symm.trans he
      simp only [Except.error.injEq] at h2
      exact ⟨"cannot explode empty str", h2.symm⟩
    · exact absurd he (hsc_ok h e)

theorem explode_noData_witness :
    (ListChunked.mk "a" []).explode_and_offsets
      = .error (.NoData "cannot explode empty list") ∧
    (Utf8Chunked.mk "a" []).explode_and_offsets
      = .error (.NoData "cannot explode empty str") :=
  ⟨(explode_noData ⟨"a", []⟩ ⟨"a", []⟩).1 (Or.inl rfl),
    (explode_noData ⟨"a", []⟩ ⟨"a", []⟩).2.2.1 (Or.inl rfl)⟩

/-- C10: for every text column the string explode succeeds on, the new
offsets array it builds satisfies the column offsets invariant: it starts at
0, is strictly increasing (one entry per Unicode scalar value start), its
final entry equals the total byte length of the concatenated value buffer,
and its length equals the exploded row count plus 1. -/
theorem utf8_new_offsets_invariant (col : Utf8Chunked) (name : String)
    (arr : StringArrData) (offs : List Int) (ca : Utf8Chunked)
    (h : col.explode_and_offsets = .ok ((name, arr), offs, ca)) :
    arr.offsets.head? = some 0 ∧
    List.Chain' (· < ·) arr.offsets ∧
    arr.offsets.getLast? = some ((byteLen arr.values : Int)) ∧
    arr.offsets.length = arr.len + 1 := by
  by_cases h0 : col.len = 0
  · simp [Utf8Chunked.explode_and_offsets, Utf8Chunked.rechunk, h0] at h
  · simp only [Utf8Chunked.explode_and_offsets, Utf8Chunked.rechunk, if_neg h0,
      List.head?_cons, Except.ok.injEq, Prod.mk.injEq] at h
    obtain ⟨⟨hname, harr⟩, hoffs, hca⟩ := h
    subst harr
    refine ⟨?_, ?_, ?_, ?_⟩
    · simpa using newOffsets_head (stringValueData col.chunks.flatten) 0
    · simpa using newOffsets_chain (stringValueData col.chunks.flatten) 0
    · exact List.getLast?_concat _
    · simp [charStarts_length]

theorem utf8_new_offsets_invariant_witness :
    (StringArrData.mk 3 [0, 1, 2, 3] ['a', 'b', 'c'] none).offsets.head? = some 0 ∧
    List.Chain' (· < ·) (StringArrData.mk 3 [0, 1, 2, 3] ['a', 'b', 'c'] none).offsets ∧
    (StringArrData.mk 3 [0, 1, 2, 3] ['a', 'b', 'c'] none).offsets.getLast?
      = some ((byteLen (StringArrData.mk 3 [0, 1, 2, 3] ['a', 'b', 'c'] none).values : Int)) ∧
    (StringArrData.mk 3 [0, 1, 2, 3] ['a', 'b', 'c'] none).offsets.length
      = (StringArrData.mk 3 [0, 1, 2, 3] ['a', 'b', 'c'] none).len + 1 :=
  utf8_new_offsets_invariant ⟨"a", [[some ['a', 'b'], some ['c']]]⟩ "a"
    ⟨3, [0, 1, 2, 3], ['a', 'b', 'c'], none⟩ [0, 2]
    ⟨"a", [[some ['a', 'b'], some ['c']]]⟩ (by rfl)

/-- C6 amended: for every text column of single-byte characters with at
least one null row that the string explode succeeds on, the rebuilt validity
bitmap is present and its length is the loop's `capacity`
(`new_offsets.len()`), which is the exploded row count plus one — one
padding bit more than the flat exploded values, not equal to it. -/
theorem utf8_null_mask_length (col : Utf8Chunked) (name : String)
    (arr : StringArrData) (offs : List Int) (ca : Utf8Chunked)
    (hnull : 0 < col.null_count)
    (hascii : ∀ r ∈ col.chunks.flatten, ∀ ch ∈ rowChars r, ch.utf8Size = 1)
    (h : col.explode_and_offsets = .ok ((name, arr), offs, ca)) :
    ∃ bits, arr.validity = some bits ∧ bits.length = arr.len + 1 := by
  by_cases h0 : col.len = 0
  · simp [Utf8Chunked.explode_and_offsets, Utf8Chunked.rechunk, h0] at h
  · simp only [Utf8Chunked.explode_and_offsets, Utf8Chunked.rechunk, if_neg h0,
      List.head?_cons, Except.ok.injEq, Prod.mk.injEq] at h
    obtain ⟨⟨hname, harr⟩, hoffs, hca⟩ := h
    subst harr
    obtain ⟨r, rs, hrr⟩ : ∃ r rs, col.chunks.flatten = r :: rs := by
      cases hc : col.chunks.flatten with
      | nil =>
        rw [utf8_len_eq_flatten_length, hc] at h0
        simp at h0
      | cons a b => exact ⟨a, b, rfl⟩
    have hsum : byteSumRows (r :: rs) = (stringValueData (r :: rs)).length := by
      rw [← hrr]
      exact byteSumRows_eq_length _ hascii
    have hcap : (charStarts 0 (stringValueData (r :: rs))
        ++ [((byteLen (stringValueData (r :: rs))) : Int)]).length
        = (stringValueData (r :: rs)).length + 1 := by
      simp [charStarts_length]
    simp only [if_pos hnull]
    refine ⟨_, rfl, ?_⟩
    rw [utf8_len_eq_flatten_length col, hrr]
    rw [rebuildNullMask_length r rs _ _ (by omega)]
    omega

theorem utf8_null_mask_length_witness :
    ∃ bits,
      (StringArrData.mk 2 [0, 1, 2] ['a', 'b'] (some [true, true, false])).validity
        = some bits ∧
      bits.length
        = (StringArrData.mk 2 [0, 1, 2] ['a', 'b'] (some [true, true, false])).len + 1 :=
  utf8_null_mask_length ⟨"a", [[some ['a', 'b'], none]]⟩ "a"
    ⟨2, [0, 1, 2], ['a', 'b'], some [true, true, false]⟩ [0, 2]
    ⟨"a", [[some ['a', 'b'], none]]⟩ (by decide) (by decide) (by rfl)

end PolarsExplode
